import Mathlib

/-!
Verification of the two pure components of the BERT pre-training notebook:
the sequence formatter `get_tokens_and_segments` and the masked-language-model
head `MaskLM` (its gather-by-position step and its feed-forward transform).
Tensors are modelled as nested lists; indices are integers so that the
negative-index convention of the underlying gather can be expressed.
-/

namespace BertSpec

/-- Embedding of `get_tokens_and_segments(tokens_a, tokens_b=None)` from the
notebook: wraps the first token list with a CLS marker and a SEP marker and
pairs it with segment ids 0; when a second list is present it is appended with
one more SEP marker and segment ids 1. -/
def get_tokens_and_segments (tokens_a : List String) (tokens_b : Option (List String)) :
    List String × List Nat :=
  let tokens := ["<cls>"] ++ tokens_a ++ ["<sep>"]
  let segments := List.replicate (tokens_a.length + 2) 0
  match tokens_b with
  | none => (tokens, segments)
  | some tb => (tokens ++ tb ++ ["<sep>"], segments ++ List.replicate (tb.length + 1) 1)

/-- C1: with `tokens_b = None` the formatter returns `[CLS] ++ A ++ [SEP]` with
all-zero segment ids of length `len A + 2`; the output starts with the CLS
marker, ends with the SEP marker, and on the empty list it is exactly
`([CLS, SEP], [0, 0])`. -/
theorem c1_format_single (A : List String) :
    get_tokens_and_segments A none =
      ("<cls>" :: A ++ ["<sep>"], List.replicate (A.length + 2) 0)
    ∧ (get_tokens_and_segments A none).1.length = A.length + 2
    ∧ (get_tokens_and_segments A none).2.length = A.length + 2
    ∧ (get_tokens_and_segments A none).1.head? = some ("<cls>")
    ∧ (get_tokens_and_segments A none).1.getLast? = some ("<sep>")
    ∧ (∀ s ∈ (get_tokens_and_segments A none).2, s = 0)
    ∧ get_tokens_and_segments ([] : List String) none = (["<cls>", "<sep>"], [0, 0]) := by
  refine ⟨rfl, by simp [get_tokens_and_segments], by simp [get_tokens_and_segments],
    by simp [get_tokens_and_segments], ?_, ?_, by simp [get_tokens_and_segments]⟩
  · show (("<cls>" :: A) ++ ["<sep>"]).getLast? = some ("<sep>")
    exact List.getLast?_concat _
  · intro s hs
    exact List.eq_of_mem_replicate hs

/-- C2: with both lists present the formatter returns
`[CLS] ++ A ++ [SEP] ++ B ++ [SEP]` with segment ids `0^(len A + 2) ++ 1^(len B + 1)`;
the output length is `len A + len B + 3`, and the concrete example from the spec
holds. -/
theorem c2_format_pair (A B : List String) :
    get_tokens_and_segments A (some B) =
      ("<cls>" :: A ++ "<sep>" :: B ++ ["<sep>"],
        List.replicate (A.length + 2) 0 ++ List.replicate (B.length + 1) 1)
    ∧ (get_tokens_and_segments A (some B)).1.length = A.length + B.length + 3
    ∧ (get_tokens_and_segments A (some B)).2.length = A.length + B.length + 3
    ∧ get_tokens_and_segments ["the", "cat"] (some ["sat", "down"]) =
        (["<cls>", "the", "cat", "<sep>", "sat", "down", "<sep>"], [0, 0, 0, 0, 1, 1, 1]) := by
  refine ⟨by simp [get_tokens_and_segments], by simp [get_tokens_and_segments]; ring,
    by simp [get_tokens_and_segments]; ring, by simp [get_tokens_and_segments]⟩

/-- C5: for every input (second list present or absent) the returned token list
and segment-id list have the same length. -/
theorem c5_lengths_agree (A : List String) (ob : Option (List String)) :
    (get_tokens_and_segments A ob).1.length = (get_tokens_and_segments A ob).2.length := by
  cases ob <;> simp [get_tokens_and_segments]
  ring

/-- C7: the formatter is not idempotent: re-feeding the token output of a
single-list call produces `[CLS, CLS] ++ A ++ [SEP, SEP]`, of length
`len A + 4`, strictly longer than and different from the single application. -/
theorem c7_not_idempotent (A : List String) :
    (get_tokens_and_segments (get_tokens_and_segments A none).1 none).1 =
      "<cls>" :: "<cls>" :: A ++ ["<sep>", "<sep>"]
    ∧ (get_tokens_and_segments (get_tokens_and_segments A none).1 none).1.length = A.length + 4
    ∧ (get_tokens_and_segments A none).1.length <
        (get_tokens_and_segments (get_tokens_and_segments A none).1 none).1.length
    ∧ (get_tokens_and_segments (get_tokens_and_segments A none).1 none).1 ≠
        (get_tokens_and_segments A none).1 := by
  refine ⟨by simp [get_tokens_and_segments], by simp [get_tokens_and_segments],
    by simp [get_tokens_and_segments], ?_⟩
  intro h
  have hlen := congrArg List.length h
  simp [get_tokens_and_segments] at hlen

/-- C8: passing an empty second list differs from passing none: with `some []`
the tokens end in two consecutive SEP markers and the segments end in one `1`,
whereas with `none` no segment id is `1` and the output is shorter. -/
theorem c8_empty_vs_none (A : List String) :
    get_tokens_and_segments A (some []) =
      ("<cls>" :: A ++ ["<sep>", "<sep>"], List.replicate (A.length + 2) 0 ++ [1])
    ∧ (1 ∉ (get_tokens_and_segments A none).2)
    ∧ (1 ∈ (get_tokens_and_segments A (some [])).2)
    ∧ (get_tokens_and_segments A (some [])).1 ≠ (get_tokens_and_segments A none).1 := by
  refine ⟨by simp [get_tokens_and_segments], ?_, by simp [get_tokens_and_segments], ?_⟩
  · intro h
    have := List.eq_of_mem_replicate (show 1 ∈ List.replicate (A.length + 2) 0 from h)
    simp at this
  · intro h
    have hlen := congrArg List.length h
    simp [get_tokens_and_segments] at hlen

/-! ### Masked-Position Predictor (`MaskLM`)

The hidden-state tensor `X` of shape (batch, positions, features) is a
`List (List (List ℝ))`; the prediction positions a `List (List Int)`.  The
gather `X[batch_idx, pred_positions]` is modelled elementwise: the two flat
index lists broadcast as in PyTorch (equal lengths pair up, a length-1 list
is repeated, any other mismatch is an error), an index is resolved with the
usual negative-index wraparound of the underlying gather, and an unresolvable
index is a failure, so the gather returns an `Option`. -/

/-- Resolution of one position index against an axis of size `n`: indices in
`[0, n)` are used as-is, indices in `[-n, 0)` count from the end, anything
else is out of range. -/
def resolveIdx (n : Nat) (i : Int) : Option Nat :=
  if 0 ≤ i then (if i < (n : Int) then some i.toNat else none)
  else (if 0 ≤ (n : Int) + i then some ((n : Int) + i).toNat else none)

/-- The resolved position as a plain number (meaningful when `-n ≤ i < n`). -/
def wrapIdx (n : Nat) (i : Int) : Nat :=
  (if 0 ≤ i then i else (n : Int) + i).toNat

/-- One step of the paired-index gather: look up batch row `bi.1`, resolve the
position index `bi.2` against its length, and return that entry. -/
def gatherOne (X : List (List α)) (bi : Nat × Int) : Option α :=
  X[bi.1]?.bind fun row => (resolveIdx row.length bi.2).bind fun j => row[j]?

/-- The list `torch.repeat_interleave (torch.arange 0 bs) np`:
each batch index in `[0, bs)` repeated `np` times, in order. -/
def batchIdx (bs np : Nat) : List Nat :=
  (List.range bs).flatMap (fun b => List.replicate np b)

/-- The value `pred_positions.shape[1]`: prediction slots per batch row. -/
def numPred (P : List (List Int)) : Nat := (P.headD []).length

/-- Pairing of the two flat 1-D index tensors under PyTorch advanced-indexing
broadcasting: equal lengths pair elementwise, a length-1 tensor is repeated to
the other tensor's length, and any other length mismatch is an indexing
error. -/
def broadcastZip (l1 : List Nat) (l2 : List Int) : Option (List (Nat × Int)) :=
  if l1.length = l2.length then some (l1.zip l2)
  else if l1.length = 1 then some (l2.map fun i => (l1.headD 0, i))
  else if l2.length = 1 then some (l1.map fun b => (b, l2.headD 0))
  else none

/-- The gather `X[batch_idx, pred_positions.reshape(-1)]`: the flat list of
gathered entries; `none` when the two index lists fail to broadcast or some
pair fails to resolve. -/
def maskedXflat (X : List (List α)) (P : List (List Int)) : Option (List α) :=
  (broadcastZip (batchIdx X.length (numPred P)) P.flatten).bind fun pairs =>
    pairs.mapM (gatherOne X)

/-- Split a list into consecutive chunks of `n` (dropping a ragged tail). -/
def chunkExact (n : Nat) (l : List α) : List (List α) :=
  (List.range (l.length / n)).map (fun i => (l.drop (i * n)).take n)

/-- The reshape of the gathered rows to `(bs, np, -1)`.  When the row count is
exactly `bs * np` (the matched-shape case) the inferred dimension is the
feature width, so the rows pass through unchanged in groups of `np`.
Otherwise (possible only after length-1 broadcasting changed the row count)
torch reshapes the flat scalar buffer: the inference needs a nonzero scalar
count that `bs * np` divides, and the inferred dimension is
`count / (bs * np)`. -/
def reshape3 (bs np : Nat) (l : List (List α)) : Option (List (List (List α))) :=
  if 0 < l.length ∧ l.length = bs * np then some (chunkExact np l)
  else if 0 < l.flatten.length ∧ 0 < bs * np ∧ l.flatten.length % (bs * np) = 0 then
    some (chunkExact np (chunkExact (l.flatten.length / (bs * np)) l.flatten))
  else none

/-- The gather-and-reshape prefix of `MaskLM.forward`: the value of `masked_X`
just before `self.mlp` is applied. -/
def maskLMgather (X : List (List (List α))) (P : List (List Int)) :
    Option (List (List (List α))) :=
  (maskedXflat X P).bind fun l => reshape3 X.length (numPred P) l

/-- The learned parameters of the `MaskLM` head: the first linear layer
(`nn.LazyLinear num_hiddens`), the layer-norm scale and shift
(`nn.LayerNorm num_hiddens`), and the second linear layer
(`nn.LazyLinear vocab_size`), each as weight rows plus bias. -/
structure MaskLM where
  W1 : List (List ℝ)
  b1 : List ℝ
  gamma : List ℝ
  beta : List ℝ
  W2 : List (List ℝ)
  b2 : List ℝ

/-- Shapes of a `MaskLM` whose layers were materialised with intermediate
width `num_hiddens` and output width `vocab_size`. -/
def MaskLM.wf (m : MaskLM) (num_hiddens vocab_size : Nat) : Prop :=
  m.W1.length = num_hiddens ∧ m.b1.length = num_hiddens ∧
  m.gamma.length = num_hiddens ∧ m.beta.length = num_hiddens ∧
  m.W2.length = vocab_size ∧ m.b2.length = vocab_size

noncomputable def dotp (xs ys : List ℝ) : ℝ := (List.zipWith (· * ·) xs ys).sum

/-- A linear layer `x ↦ W x + b`, one output per weight row. -/
noncomputable def linearLayer (W : List (List ℝ)) (b : List ℝ) (x : List ℝ) : List ℝ :=
  List.zipWith (fun row bi => dotp row x + bi) W b

noncomputable def relu (x : ℝ) : ℝ := max x 0

/-- Layer normalisation (`nn.LayerNorm`) over the feature axis: centre by the
mean, scale by the inverse standard deviation (with `eps = 1e-5`), then apply
the learned affine parameters elementwise. -/
noncomputable def layerNorm (gamma beta x : List ℝ) : List ℝ :=
  let n : ℝ := x.length
  let mu := x.sum / n
  let v := (x.map (fun xi => (xi - mu) ^ 2)).sum / n
  List.zipWith (fun gb xi => gb.1 * ((xi - mu) / Real.sqrt (v + 1 / 100000)) + gb.2)
    (gamma.zip beta) x

/-- The transform `self.mlp` applied to one gathered feature vector: first
linear layer, ReLU, layer norm, second linear layer. -/
noncomputable def MaskLM.mlpVec (m : MaskLM) (x : List ℝ) : List ℝ :=
  linearLayer m.W2 m.b2 (layerNorm m.gamma m.beta ((linearLayer m.W1 m.b1 x).map relu))

/-- Forward pass of `MaskLM`: gather the hidden vectors at the prediction
positions, reshape to (batch, num_pred, features), and apply the MLP to every
vector. -/
noncomputable def MaskLM.forward (m : MaskLM) (X : List (List (List ℝ)))
    (P : List (List Int)) : Option (List (List (List ℝ))) :=
  (maskLMgather X P).map fun Y => Y.map fun row => row.map (m.mlpVec)

/-- In-bounds lookup with the wraparound convention, used to state what the
gather returns (the default is only reached out of bounds). -/
def gatherD [Inhabited α] (X : List (List α)) (b : Nat) (i : Int) : α :=
  (X.getD b []).getD (wrapIdx (X.getD b []).length i) default

/-! ### Helper lemmas about index resolution and the gather -/

lemma wrapIdx_of_nonneg {i : Int} (h : 0 ≤ i) (n : Nat) : wrapIdx n i = i.toNat := by
  simp [wrapIdx, h]

lemma wrapIdx_of_neg {i : Int} (h : i < 0) (n : Nat) : wrapIdx n i = ((n : Int) + i).toNat := by
  simp [wrapIdx, Int.not_le.mpr h]

lemma wrapIdx_lt {n : Nat} {i : Int} (h1 : -(n : Int) ≤ i) (h2 : i < (n : Int)) :
    wrapIdx n i < n := by
  rcases le_or_lt 0 i with hpos | hneg
  · rw [wrapIdx_of_nonneg hpos]
    omega
  · rw [wrapIdx_of_neg hneg]
    omega

lemma resolveIdx_of_inrange {n : Nat} {i : Int} (h1 : -(n : Int) ≤ i) (h2 : i < (n : Int)) :
    resolveIdx n i = some (wrapIdx n i) := by
  rcases le_or_lt 0 i with hpos | hneg
  · rw [resolveIdx, if_pos hpos, if_pos h2, wrapIdx_of_nonneg hpos]
  · rw [resolveIdx, if_neg (Int.not_le.mpr hneg), if_pos (by omega), wrapIdx_of_neg hneg]

lemma resolveIdx_of_outrange {n : Nat} {i : Int} (h : i < -(n : Int) ∨ (n : Int) ≤ i) :
    resolveIdx n i = none := by
  rcases h with h | h
  · rw [resolveIdx, if_neg (by omega), if_neg (by omega)]
  · rw [resolveIdx, if_pos (by omega), if_neg (by omega)]

lemma gatherOne_eq_some [Inhabited α] {X : List (List α)} {b : Nat} {i : Int}
    (hb : b < X.length) (h1 : -((X.getD b []).length : Int) ≤ i)
    (h2 : i < ((X.getD b []).length : Int)) :
    gatherOne X (b, i) = some (gatherD X b i) := by
  have hrow : X[b]? = some (X.getD b []) := by
    rw [List.getElem?_eq_getElem hb, List.getD_eq_getElem X [] hb]
  rw [gatherOne]
  simp only [hrow, Option.some_bind]
  rw [resolveIdx_of_inrange h1 h2]
  simp only [Option.some_bind]
  rw [gatherD, List.getElem?_eq_getElem (wrapIdx_lt h1 h2),
    List.getD_eq_getElem _ _ (wrapIdx_lt h1 h2)]

lemma gatherOne_eq_none {X : List (List α)} {b : Nat} {i : Int}
    (hb : b < X.length)
    (h : i < -((X.getD b []).length : Int) ∨ ((X.getD b []).length : Int) ≤ i) :
    gatherOne X (b, i) = none := by
  have hrow : X[b]? = some (X.getD b []) := by
    rw [List.getElem?_eq_getElem hb, List.getD_eq_getElem X [] hb]
  rw [gatherOne]
  simp only [hrow, Option.some_bind]
  rw [resolveIdx_of_outrange h]
  rfl

/-! ### Helper lemmas about `mapM` over `Option` -/

lemma optionMapM_eq_some_map (f : β → Option γ) (g : β → γ) :
    ∀ l : List β, (∀ x ∈ l, f x = some (g x)) → l.mapM f = some (l.map g)
  | [], _ => rfl
  | x :: l, h => by
    rw [List.mapM_cons, h x (List.mem_cons_self x l),
      optionMapM_eq_some_map f g l (fun y hy => h y (List.mem_cons_of_mem x hy))]
    rfl

lemma optionMapM_eq_none (f : β → Option γ) {x : β} :
    ∀ {l : List β}, x ∈ l → f x = none → l.mapM f = none := by
  intro l
  induction l with
  | nil => intro h; exact absurd h (List.not_mem_nil x)
  | cons a t ih =>
    intro hmem hfx
    rw [List.mapM_cons]
    rcases List.mem_cons.mp hmem with rfl | ht
    · rw [hfx]; rfl
    · rw [ih ht hfx]
      cases f a <;> rfl

/-! ### Helper lemmas about the flat index lists -/

lemma length_batchIdx (bs np : Nat) : (batchIdx bs np).length = bs * np := by
  induction bs with
  | zero => simp [batchIdx]
  | succ b ih =>
    rw [batchIdx, List.range_succ, List.flatMap_append] at *
    simp only [List.length_append, ih, List.flatMap_cons, List.flatMap_nil,
      List.append_nil, List.length_replicate]
    ring

lemma length_flatten_rect {np : Nat} :
    ∀ {P : List (List Int)}, (∀ r ∈ P, r.length = np) → P.flatten.length = P.length * np := by
  intro P
  induction P with
  | nil => intro _; simp
  | cons r t ih =>
    intro h
    rw [List.flatten_cons, List.length_append, ih (fun x hx => h x (List.mem_cons_of_mem r hx)),
      h r (List.mem_cons_self r t), List.length_cons, Nat.succ_mul, Nat.add_comm]

lemma zip_replicate_length (a : γ) :
    ∀ (r : List β), (List.replicate r.length a).zip r = r.map (fun x => (a, x))
  | [] => rfl
  | x :: r => by
    rw [List.length_cons, List.replicate_succ, List.zip_cons_cons, zip_replicate_length a r,
      List.map_cons]

lemma zip_batch_flatten {np : Nat} :
    ∀ (P : List (List Int)) (s : Nat), (∀ r ∈ P, r.length = np) →
      ((List.range' s P.length).flatMap (fun b => List.replicate np b)).zip P.flatten =
        (P.enumFrom s).flatMap (fun bi => bi.2.map (fun i => (bi.1, i)))
  | [], s, _ => rfl
  | r :: t, s, h => by
    have hr : r.length = np := h r (List.mem_cons_self r t)
    rw [List.length_cons, List.range'_succ, List.flatMap_cons, List.flatten_cons,
      List.zip_append (by rw [List.length_replicate, hr]),
      zip_batch_flatten t (s + 1) (fun x hx => h x (List.mem_cons_of_mem r hx)),
      List.enumFrom_cons, List.flatMap_cons, ← hr, zip_replicate_length]

/-! ### Helper lemmas about `chunkExact` -/

lemma chunkExact_nil (n : Nat) : chunkExact n ([] : List α) = [] := by
  simp [chunkExact]

lemma chunkExact_append {n : Nat} (hn : 0 < n) {l1 : List α} (l2 : List α)
    (h : l1.length = n) : chunkExact n (l1 ++ l2) = l1 :: chunkExact n l2 := by
  rw [chunkExact, chunkExact, List.length_append, h, Nat.add_comm n l2.length,
    Nat.add_div_right _ hn, List.range_succ_eq_map, List.map_cons]
  congr 1
  · rw [Nat.zero_mul, List.drop_zero, List.take_append_of_le_length (by omega),
      List.take_of_length_le (by omega)]
  · rw [List.map_map]
    apply List.map_congr_left
    intro i _
    show (List.drop (i.succ * n) (l1 ++ l2)).take n = (List.drop (i * n) l2).take n
    rw [Nat.succ_mul, Nat.add_comm (i * n) n, ← h, List.drop_append]

lemma chunkExact_flatMap {n : Nat} (hn : 0 < n) (f : β → List α) :
    ∀ (L : List β), (∀ x ∈ L, (f x).length = n) →
      chunkExact n (L.flatMap f) = L.map f
  | [], _ => by rw [List.flatMap_nil, chunkExact_nil, List.map_nil]
  | x :: L, h => by
    rw [List.flatMap_cons, chunkExact_append hn _ (h x (List.mem_cons_self x L)),
      chunkExact_flatMap hn f L (fun y hy => h y (List.mem_cons_of_mem x hy)), List.map_cons]

/-- Characterisation of the gather-and-reshape step of `MaskLM.forward` on
well-shaped, in-range input: it succeeds, and row `b`, slot `k` of the result
holds the entry of `X[b]` at the resolved position `P[b][k]`. -/
lemma maskLMgather_eq_some {X : List (List (List α))} {P : List (List Int)}
    (hlen : P.length = X.length) (hbs : 0 < X.length) (hnp : 0 < numPred P)
    (hrect : ∀ r ∈ P, r.length = numPred P)
    (hin : ∀ b pr, P[b]? = some pr → ∀ i ∈ pr,
      -((X.getD b []).length : Int) ≤ i ∧ i < ((X.getD b []).length : Int)) :
    maskLMgather X P = some (P.enum.map fun bi => bi.2.map fun i => gatherD X bi.1 i) := by
  have hbl : (batchIdx X.length (numPred P)).length = X.length * numPred P :=
    length_batchIdx _ _
  have hfl : P.flatten.length = X.length * numPred P := by
    rw [length_flatten_rect hrect, hlen]
  have hzip : (batchIdx X.length (numPred P)).zip P.flatten =
      P.enum.flatMap (fun bi => bi.2.map (fun i => (bi.1, i))) := by
    rw [batchIdx, ← hlen, List.range_eq_range', List.enum]
    exact zip_batch_flatten P 0 hrect
  have hmem : ∀ x ∈ P.enum.flatMap (fun bi => bi.2.map (fun i => (bi.1, i))),
      gatherOne X x = some (gatherD X x.1 x.2) := by
    intro x hx
    rcases List.mem_flatMap.mp hx with ⟨bi, hbi, hxin⟩
    rcases List.mem_map.mp hxin with ⟨i, hi, rfl⟩
    have hP : P[bi.1]? = some bi.2 :=
      List.mk_mem_enum_iff_getElem?.mp (by rwa [Prod.mk.eta])
    have hb : bi.1 < X.length := by
      rcases List.getElem?_eq_some.mp hP with ⟨hlt, _⟩
      omega
    obtain ⟨h1, h2⟩ := hin bi.1 bi.2 hP i hi
    exact gatherOne_eq_some hb h1 h2
  have hmaplen :
      (((P.enum.flatMap fun bi => bi.2.map fun i => (bi.1, i)).map
        fun x => gatherD X x.1 x.2)).length = X.length * numPred P := by
    rw [List.length_map, ← hzip, List.length_zip, hbl, hfl, Nat.min_self]
  have hbz : broadcastZip (batchIdx X.length (numPred P)) P.flatten =
      some ((batchIdx X.length (numPred P)).zip P.flatten) := by
    rw [broadcastZip, if_pos (by rw [hbl, hfl])]
  simp only [maskLMgather, maskedXflat]
  rw [hbz, Option.some_bind, hzip,
    optionMapM_eq_some_map (gatherOne X) (fun x => gatherD X x.1 x.2) _ hmem,
    Option.some_bind, reshape3,
    if_pos (And.intro (by rw [hmaplen]; exact Nat.mul_pos hbs hnp) (by rw [hmaplen]))]
  congr 1
  rw [List.map_flatMap]
  have hflat :
      (P.enum.flatMap fun bi => (bi.2.map fun i => (bi.1, i)).map fun x => gatherD X x.1 x.2) =
        P.enum.flatMap fun bi => bi.2.map fun i => gatherD X bi.1 i := by
    apply congrArg (List.flatMap P.enum)
    funext bi
    rw [List.map_map]
    rfl
  rw [hflat]
  apply chunkExact_flatMap hnp
  intro bi hbi
  rw [List.length_map]
  apply hrect
  have hP : P[bi.1]? = some bi.2 :=
    List.mk_mem_enum_iff_getElem?.mp (by rwa [Prod.mk.eta])
  exact List.getElem?_mem hP

lemma numPred_eq {P : List (List Int)} {np : Nat} (h0 : P ≠ []) (h : ∀ r ∈ P, r.length = np) :
    numPred P = np := by
  cases P with
  | nil => exact absurd rfl h0
  | cons r t => exact h r (List.mem_cons_self r t)

lemma getD_mem {X : List (List α)} {b : Nat} (hb : b < X.length) : X.getD b [] ∈ X := by
  rw [List.getD_eq_getElem X [] hb]
  exact List.getElem_mem _

lemma gatherD_mem [Inhabited α] {X : List (List α)} {b : Nat} {i : Int}
    (h1 : -((X.getD b []).length : Int) ≤ i) (h2 : i < ((X.getD b []).length : Int)) :
    gatherD X b i ∈ X.getD b [] := by
  rw [gatherD, List.getD_eq_getElem _ _ (wrapIdx_lt h1 h2)]
  exact List.getElem_mem _

lemma gather_row [Inhabited α] (X : List (List α)) (P : List (List Int)) {b : Nat}
    {pr : List Int} (hP : P[b]? = some pr) :
    (P.enum.map fun bi => bi.2.map fun j => gatherD X bi.1 j)[b]? =
      some (pr.map fun j => gatherD X b j) := by
  rw [List.getElem?_map, List.getElem?_enum, hP]
  rfl

lemma gather_entry [Inhabited α] (X : List (List α)) (P : List (List Int)) {b k : Nat}
    {pr : List Int} {i : Int} (hP : P[b]? = some pr) (hk : pr[k]? = some i) :
    ((P.enum.map fun bi => bi.2.map fun j => gatherD X bi.1 j)[b]?.bind fun row => row[k]?) =
      some (gatherD X b i) := by
  rw [gather_row X P hP, Option.some_bind, List.getElem?_map, hk]
  rfl

/-- C3: on a well-shaped hidden-state tensor of shape (`bs`, `pos`, `feat`) and
an in-range position matrix of shape (`bs`, `np`), the tensor `masked_X`
computed by `MaskLM.forward` before the MLP is applied has shape
(`bs`, `np`, `feat`), and its entry at `(b, k)` is exactly the feature vector
`X[b][P[b][k]]`, in the input order of batches and requested positions. -/
theorem c3_gather_before_mlp (X : List (List (List ℝ))) (P : List (List Int))
    (bs pos feat np : Nat) (hbs : 0 < bs) (hnp : 0 < np)
    (hX : X.length = bs) (hXr : ∀ r ∈ X, r.length = pos)
    (hXv : ∀ r ∈ X, ∀ v ∈ r, v.length = feat)
    (hP : P.length = bs) (hPr : ∀ r ∈ P, r.length = np)
    (hin : ∀ r ∈ P, ∀ i ∈ r, 0 ≤ i ∧ i < (pos : Int)) :
    ∃ Y, maskLMgather X P = some Y
      ∧ Y.length = bs
      ∧ (∀ row ∈ Y, row.length = np)
      ∧ (∀ row ∈ Y, ∀ v ∈ row, v.length = feat)
      ∧ (∀ (b k : Nat) (pr : List Int) (i : Int), P[b]? = some pr → pr[k]? = some i →
          (Y[b]?.bind fun row => row[k]?) = (X[b]?.bind fun xr => xr[i.toNat]?)) := by
  have hPne : P ≠ [] := List.ne_nil_of_length_pos (by omega)
  have hnpP : numPred P = np := numPred_eq hPne hPr
  have hlen : P.length = X.length := by rw [hP, hX]
  have hrowlen : ∀ b, b < X.length → (X.getD b []).length = pos :=
    fun b hb => hXr _ (getD_mem hb)
  have hin2 : ∀ b pr, P[b]? = some pr → ∀ i ∈ pr,
      -((X.getD b []).length : Int) ≤ i ∧ i < ((X.getD b []).length : Int) := by
    intro b pr hPb i hi
    have hb : b < X.length := by
      rcases List.getElem?_eq_some.mp hPb with ⟨hlt, _⟩
      omega
    have hii := hin pr (List.getElem?_mem hPb) i hi
    rw [hrowlen b hb]
    omega
  have hmaster := maskLMgather_eq_some hlen (by omega) (by omega)
    (fun r hr => by rw [hnpP]; exact hPr r hr) hin2
  refine ⟨_, hmaster, ?_, ?_, ?_, ?_⟩
  · rw [List.length_map, List.enum_length, hP]
  · intro row hrow
    rcases List.mem_map.mp hrow with ⟨bi, hbi, rfl⟩
    have hPb : P[bi.1]? = some bi.2 :=
      List.mk_mem_enum_iff_getElem?.mp (by rwa [Prod.mk.eta])
    rw [List.length_map]
    exact hPr _ (List.getElem?_mem hPb)
  · intro row hrow v hv
    rcases List.mem_map.mp hrow with ⟨bi, hbi, rfl⟩
    rcases List.mem_map.mp hv with ⟨i, hi, rfl⟩
    have hPb : P[bi.1]? = some bi.2 :=
      List.mk_mem_enum_iff_getElem?.mp (by rwa [Prod.mk.eta])
    have hb : bi.1 < X.length := by
      rcases List.getElem?_eq_some.mp hPb with ⟨hlt, _⟩
      omega
    obtain ⟨h1, h2⟩ := hin2 bi.1 bi.2 hPb i hi
    exact hXv _ (getD_mem hb) _ (gatherD_mem h1 h2)
  · intro b k pr i hPb hk
    have hb : b < X.length := by
      rcases List.getElem?_eq_some.mp hPb with ⟨hlt, _⟩
      omega
    have hi : i ∈ pr := List.getElem?_mem hk
    obtain ⟨h0, hpos⟩ := hin pr (List.getElem?_mem hPb) i hi
    rw [gather_entry X P hPb hk, List.getElem?_eq_getElem hb, Option.some_bind]
    have hxb : (X[b]).length = pos := hXr _ (List.getElem_mem _)
    have hit : i.toNat < (X[b]).length := by omega
    rw [List.getElem?_eq_getElem hit]
    have hgd : X.getD b [] = X[b] := List.getD_eq_getElem X [] hb
    rw [gatherD, hgd, wrapIdx_of_nonneg h0, List.getD_eq_getElem _ _ hit]

/-- Concrete hidden-state tensor of shape (2, 3, 2) used as witness input. -/
noncomputable def Xc3 : List (List (List ℝ)) :=
  [[[0, 1], [2, 3], [4, 5]], [[6, 7], [8, 9], [10, 11]]]

/-- Concrete prediction positions of shape (2, 2) used as witness input. -/
def Pc3 : List (List Int) := [[1, 2], [0, 1]]

theorem c3_witness :
    ∃ Y, maskLMgather Xc3 Pc3 = some Y
      ∧ Y.length = 2
      ∧ (∀ row ∈ Y, row.length = 2)
      ∧ (∀ row ∈ Y, ∀ v ∈ row, v.length = 2)
      ∧ (∀ (b k : Nat) (pr : List Int) (i : Int), Pc3[b]? = some pr → pr[k]? = some i →
          (Y[b]?.bind fun row => row[k]?) = (Xc3[b]?.bind fun xr => xr[i.toNat]?)) :=
  c3_gather_before_mlp Xc3 Pc3 2 3 2 2 (by decide) (by decide) (by decide) (by decide)
    (by decide) (by decide) (by decide) (by decide)

/-- Closed form of `MaskLM.forward` on well-shaped, in-range input: the MLP is
applied to each gathered vector in place. -/
lemma maskLMforward_eq_some (m : MaskLM) {X : List (List (List ℝ))} {P : List (List Int)}
    (hlen : P.length = X.length) (hbs : 0 < X.length) (hnp : 0 < numPred P)
    (hrect : ∀ r ∈ P, r.length = numPred P)
    (hin : ∀ b pr, P[b]? = some pr → ∀ i ∈ pr,
      -((X.getD b []).length : Int) ≤ i ∧ i < ((X.getD b []).length : Int)) :
    MaskLM.forward m X P =
      some (P.enum.map fun bi => bi.2.map fun i => m.mlpVec (gatherD X bi.1 i)) := by
  rw [MaskLM.forward, maskLMgather_eq_some hlen hbs hnp hrect hin, Option.map_some', List.map_map]
  congr 1
  apply List.map_congr_left
  intro bi _
  show (bi.2.map fun i => gatherD X bi.1 i).map m.mlpVec = bi.2.map fun i => m.mlpVec (gatherD X bi.1 i)
  rw [List.map_map]
  rfl

lemma length_mlpVec (m : MaskLM) {H V : Nat} (hwf : m.wf H V) (x : List ℝ) :
    (m.mlpVec x).length = V := by
  obtain ⟨_, _, _, _, h5, h6⟩ := hwf
  rw [MaskLM.mlpVec, linearLayer, List.length_zipWith, h5, h6, Nat.min_self]

lemma mlp_row (m : MaskLM) (X : List (List (List ℝ))) (P : List (List Int)) {b : Nat}
    {pr : List Int} (hP : P[b]? = some pr) :
    (P.enum.map fun bi => bi.2.map fun j => m.mlpVec (gatherD X bi.1 j))[b]? =
      some (pr.map fun j => m.mlpVec (gatherD X b j)) := by
  rw [List.getElem?_map, List.getElem?_enum, hP]
  rfl

lemma mlp_entry (m : MaskLM) (X : List (List (List ℝ))) (P : List (List Int)) {b k : Nat}
    {pr : List Int} {i : Int} (hP : P[b]? = some pr) (hk : pr[k]? = some i) :
    ((P.enum.map fun bi => bi.2.map fun j => m.mlpVec (gatherD X bi.1 j))[b]?.bind
        fun row => row[k]?) =
      some (m.mlpVec (gatherD X b i)) := by
  rw [mlp_row m X P hP, Option.some_bind, List.getElem?_map, hk]
  rfl

/-- C4: on a well-shaped hidden-state tensor of shape (`bs`, `pos`, `feat`) and
in-range prediction positions of shape (`bs`, `np`), `MaskLM.forward` returns a
tensor of shape (`bs`, `np`, `vocab_size`), and its entry at `(b, k)` is the
gathered vector `X[b][P[b][k]]` passed through the fixed composition of first
linear layer, ReLU, layer norm, and second linear layer. -/
theorem c4_forward_shape (m : MaskLM) (X : List (List (List ℝ))) (P : List (List Int))
    (bs pos np nh vocab : Nat) (hbs : 0 < bs) (hnp : 0 < np)
    (hwf : m.wf nh vocab)
    (hX : X.length = bs) (hXr : ∀ r ∈ X, r.length = pos)
    (hP : P.length = bs) (hPr : ∀ r ∈ P, r.length = np)
    (hin : ∀ r ∈ P, ∀ i ∈ r, 0 ≤ i ∧ i < (pos : Int)) :
    ∃ Y, MaskLM.forward m X P = some Y
      ∧ Y.length = bs
      ∧ (∀ row ∈ Y, row.length = np)
      ∧ (∀ row ∈ Y, ∀ v ∈ row, v.length = vocab)
      ∧ (∀ (b k : Nat) (pr : List Int) (i : Int), P[b]? = some pr → pr[k]? = some i →
          (Y[b]?.bind fun row => row[k]?) =
            (X[b]?.bind fun xr => xr[i.toNat]?).map m.mlpVec) := by
  have hPne : P ≠ [] := List.ne_nil_of_length_pos (by omega)
  have hnpP : numPred P = np := numPred_eq hPne hPr
  have hlen : P.length = X.length := by rw [hP, hX]
  have hrowlen : ∀ b, b < X.length → (X.getD b []).length = pos :=
    fun b hb => hXr _ (getD_mem hb)
  have hin2 : ∀ b pr, P[b]? = some pr → ∀ i ∈ pr,
      -((X.getD b []).length : Int) ≤ i ∧ i < ((X.getD b []).length : Int) := by
    intro b pr hPb i hi
    have hb : b < X.length := by
      rcases List.getElem?_eq_some.mp hPb with ⟨hlt, _⟩
      omega
    have hii := hin pr (List.getElem?_mem hPb) i hi
    rw [hrowlen b hb]
    omega
  have hmaster := maskLMforward_eq_some m hlen (by omega) (by omega)
    (fun r hr => by rw [hnpP]; exact hPr r hr) hin2
  refine ⟨_, hmaster, ?_, ?_, ?_, ?_⟩
  · rw [List.length_map, List.enum_length, hP]
  · intro row hrow
    rcases List.mem_map.mp hrow with ⟨bi, hbi, rfl⟩
    have hPb : P[bi.1]? = some bi.2 :=
      List.mk_mem_enum_iff_getElem?.mp (by rwa [Prod.mk.eta])
    rw [List.length_map]
    exact hPr _ (List.getElem?_mem hPb)
  · intro row hrow v hv
    rcases List.mem_map.mp hrow with ⟨bi, hbi, rfl⟩
    rcases List.mem_map.mp hv with ⟨i, hi, rfl⟩
    exact length_mlpVec m hwf _
  · intro b k pr i hPb hk
    have hb : b < X.length := by
      rcases List.getElem?_eq_some.mp hPb with ⟨hlt, _⟩
      omega
    have hi : i ∈ pr := List.getElem?_mem hk
    obtain ⟨h0, hpos⟩ := hin pr (List.getElem?_mem hPb) i hi
    rw [mlp_entry m X P hPb hk, List.getElem?_eq_getElem hb, Option.some_bind]
    have hxb : (X[b]).length = pos := hXr _ (List.getElem_mem _)
    have hit : i.toNat < (X[b]).length := by omega
    rw [List.getElem?_eq_getElem hit, Option.map_some']
    have hgd : X.getD b [] = X[b] := List.getD_eq_getElem X [] hb
    rw [gatherD, hgd, wrapIdx_of_nonneg h0, List.getD_eq_getElem _ _ hit]

/-- Concrete well-formed parameters (`nh = 2`, `vocab = 3`) for witnesses. -/
noncomputable def mW : MaskLM :=
  { W1 := List.replicate 2 (List.replicate 16 (0 : ℝ)), b1 := List.replicate 2 0,
    gamma := List.replicate 2 1, beta := List.replicate 2 0,
    W2 := List.replicate 3 (List.replicate 2 (0 : ℝ)), b2 := List.replicate 3 0 }

/-- Concrete hidden-state tensor of shape (2, 5, 16), as in the spec example. -/
noncomputable def Xc4 : List (List (List ℝ)) :=
  List.replicate 2 (List.replicate 5 (List.replicate 16 (0 : ℝ)))

/-- Concrete prediction positions [[1, 3], [0, 4]], as in the spec example. -/
def Pc4 : List (List Int) := [[1, 3], [0, 4]]

theorem c4_witness :
    ∃ Y, MaskLM.forward mW Xc4 Pc4 = some Y
      ∧ Y.length = 2
      ∧ (∀ row ∈ Y, row.length = 2)
      ∧ (∀ row ∈ Y, ∀ v ∈ row, v.length = 3)
      ∧ (∀ (b k : Nat) (pr : List Int) (i : Int), Pc4[b]? = some pr → pr[k]? = some i →
          (Y[b]?.bind fun row => row[k]?) =
            (Xc4[b]?.bind fun xr => xr[i.toNat]?).map mW.mlpVec) :=
  c4_forward_shape mW Xc4 Pc4 2 5 2 2 3 (by decide) (by decide) ⟨rfl, rfl, rfl, rfl, rfl, rfl⟩
    (by decide) (by decide) (by decide) (by decide) (by decide)

/-- C6: no cross-batch leakage: two calls of `MaskLM.forward` with the same
learned parameters, the same shapes, and the same batch row `b` of both the
hidden states and the positions return the same output row `b`, whatever the
other batch elements hold. -/
theorem c6_no_cross_batch (m : MaskLM) (X X2 : List (List (List ℝ)))
    (P P2 : List (List Int)) (b : Nat) (bs pos np : Nat)
    (hbs : 0 < bs) (hnp : 0 < np)
    (hX : X.length = bs) (hX2 : X2.length = bs)
    (hXr : ∀ r ∈ X, r.length = pos) (hXr2 : ∀ r ∈ X2, r.length = pos)
    (hP : P.length = bs) (hP2 : P2.length = bs)
    (hPr : ∀ r ∈ P, r.length = np) (hPr2 : ∀ r ∈ P2, r.length = np)
    (hinP : ∀ r ∈ P, ∀ i ∈ r, -(pos : Int) ≤ i ∧ i < (pos : Int))
    (hinP2 : ∀ r ∈ P2, ∀ i ∈ r, -(pos : Int) ≤ i ∧ i < (pos : Int))
    (hXb : X[b]? = X2[b]?) (hPb : P[b]? = P2[b]?) :
    ((MaskLM.forward m X P).bind fun Y => Y[b]?) =
      ((MaskLM.forward m X2 P2).bind fun Y => Y[b]?) := by
  have hgd : X.getD b [] = X2.getD b [] := by
    rw [List.getD_eq_getElem?_getD, List.getD_eq_getElem?_getD, hXb]
  have hnpP : numPred P = np := numPred_eq (List.ne_nil_of_length_pos (by omega)) hPr
  have hnpP2 : numPred P2 = np := numPred_eq (List.ne_nil_of_length_pos (by omega)) hPr2
  have hin : ∀ c pr, P[c]? = some pr → ∀ i ∈ pr,
      -((X.getD c []).length : Int) ≤ i ∧ i < ((X.getD c []).length : Int) := by
    intro c pr hc i hi
    have hcl : c < X.length := by
      rcases List.getElem?_eq_some.mp hc with ⟨hlt, _⟩
      omega
    have := hinP pr (List.getElem?_mem hc) i hi
    rw [hXr _ (getD_mem hcl)]
    omega
  have hin2 : ∀ c pr, P2[c]? = some pr → ∀ i ∈ pr,
      -((X2.getD c []).length : Int) ≤ i ∧ i < ((X2.getD c []).length : Int) := by
    intro c pr hc i hi
    have hcl : c < X2.length := by
      rcases List.getElem?_eq_some.mp hc with ⟨hlt, _⟩
      omega
    have := hinP2 pr (List.getElem?_mem hc) i hi
    rw [hXr2 _ (getD_mem hcl)]
    omega
  rw [maskLMforward_eq_some m (by omega) (by omega) (by omega)
      (fun r hr => by rw [hnpP]; exact hPr r hr) hin,
    maskLMforward_eq_some m (by omega) (by omega) (by omega)
      (fun r hr => by rw [hnpP2]; exact hPr2 r hr) hin2,
    Option.some_bind, Option.some_bind, List.getElem?_map, List.getElem?_enum,
    List.getElem?_map, List.getElem?_enum, hPb]
  cases hP2b : P2[b]? with
  | none => rfl
  | some pr =>
    simp only [Option.map_some']
    show some (pr.map fun i => m.mlpVec (gatherD X b i)) =
      some (pr.map fun i => m.mlpVec (gatherD X2 b i))
    congr 1
    apply List.map_congr_left
    intro i _
    rw [gatherD, gatherD, hgd]

/-- Second hidden-state tensor for the C6 witness: row 0 agrees with `Xc3`,
row 1 differs everywhere. -/
noncomputable def Xc6 : List (List (List ℝ)) :=
  [[[0, 1], [2, 3], [4, 5]], [[90, 91], [92, 93], [94, 95]]]

/-- Second position matrix for the C6 witness: row 0 agrees with `Pc3`,
row 1 differs. -/
def Pc6 : List (List Int) := [[1, 2], [2, 2]]

theorem c6_witness :
    ((MaskLM.forward mW Xc3 Pc3).bind fun Y => Y[0]?) =
      ((MaskLM.forward mW Xc6 Pc6).bind fun Y => Y[0]?) :=
  c6_no_cross_batch mW Xc3 Xc6 Pc3 Pc6 0 2 3 2 (by decide) (by decide) (by decide)
    (by decide) (by decide) (by decide) (by decide) (by decide) (by decide) (by decide)
    (by decide) (by decide) rfl rfl

/-- C9 (amended): `MaskLM.forward` needs `pred_positions.shape[0] == X.shape[0]`:
when the batch dimensions match, both flat index lists have exactly
`batch_size * num_pred` entries (so the reshape succeeds); when they differ
the paired gather fails and no result is returned — unless one of the two
flat index lists has a single entry, in which case PyTorch's length-1
broadcasting can still produce a result (see `c9_counterexample`). -/
theorem c9_batch_dim_precondition (m : MaskLM) (X : List (List (List ℝ)))
    (P : List (List Int)) (np : Nat) (hnp : 0 < np) (hP0 : P ≠ [])
    (hrect : ∀ r ∈ P, r.length = np) :
    (P.length = X.length →
      (batchIdx X.length (numPred P)).length = X.length * np
      ∧ P.flatten.length = X.length * np)
    ∧ (P.length ≠ X.length → X.length * np ≠ 1 → P.length * np ≠ 1 →
        MaskLM.forward m X P = none) := by
  have hnpP : numPred P = np := numPred_eq hP0 hrect
  constructor
  · intro he
    constructor
    · rw [length_batchIdx, hnpP]
    · rw [length_flatten_rect hrect, he]
  · intro hne h1 h2
    have hL1 : (batchIdx X.length (numPred P)).length = X.length * np := by
      rw [length_batchIdx, hnpP]
    have hL2 : P.flatten.length = P.length * np := length_flatten_rect hrect
    have hc1 : ¬ ((batchIdx X.length (numPred P)).length = P.flatten.length) := by
      rw [hL1, hL2]
      intro h
      exact hne (Nat.eq_of_mul_eq_mul_right hnp h).symm
    have hc2 : ¬ ((batchIdx X.length (numPred P)).length = 1) := by
      rw [hL1]
      exact h1
    have hc3 : ¬ (P.flatten.length = 1) := by
      rw [hL2]
      exact h2
    have hbz : broadcastZip (batchIdx X.length (numPred P)) P.flatten = none := by
      rw [broadcastZip, if_neg hc1, if_neg hc2, if_neg hc3]
    rw [MaskLM.forward, maskLMgather]
    simp only [maskedXflat]
    rw [hbz]
    rfl

/-- One-batch hidden states of shape (1, 2, 1): the broadcast counterexample
input. -/
noncomputable def Xc9 : List (List (List ℝ)) := [[[0], [1]]]

/-- Two-row position matrix of shape (2, 1): its batch dimension does not
match `Xc9`, but its flat batch-index list has a single entry, so the gather
broadcasts it. -/
def Pc9 : List (List Int) := [[0], [1]]

/-- Counterexample to C9 as stated: the batch dimensions differ (2 vs 1), yet
`MaskLM.forward` still returns a result, because the length-1 flat batch-index
list broadcasts against the two flat positions and the reshape `(1, 1, -1)`
absorbs both gathered rows into one slot. -/
theorem c9_counterexample :
    Pc9.length ≠ Xc9.length ∧ (MaskLM.forward mW Xc9 Pc9).isSome = true :=
  ⟨by decide, by rfl⟩

/-- Position matrix of shape (3, 2) whose batch dimension does not match
`Xc9` and whose flat index lists both have more than one entry. -/
def Pc9b : List (List Int) := [[0, 1], [1, 0], [0, 0]]

theorem c9_witness :
    (Pc9b.length = Xc9.length →
      (batchIdx Xc9.length (numPred Pc9b)).length = Xc9.length * 2
      ∧ Pc9b.flatten.length = Xc9.length * 2)
    ∧ (Pc9b.length ≠ Xc9.length → Xc9.length * 2 ≠ 1 → Pc9b.length * 2 ≠ 1 →
        MaskLM.forward mW Xc9 Pc9b = none) :=
  c9_batch_dim_precondition mW Xc9 Pc9b 2 (by decide) (by decide) (by decide)

/-- C10: the gather in `MaskLM.forward` accepts negative positions silently:
on a tensor with `pos` positions every index in `[-pos, pos)` succeeds, a
negative index `i` selecting the vector at `pos + i`; an index `≥ pos` or
`< -pos` makes the gather fail. -/
theorem c10_negative_positions (X : List (List (List ℝ))) (P : List (List Int))
    (bs pos np : Nat) (hbs : 0 < bs) (hnp : 0 < np)
    (hX : X.length = bs) (hXr : ∀ r ∈ X, r.length = pos)
    (hP : P.length = bs) (hPr : ∀ r ∈ P, r.length = np) :
    ((∀ r ∈ P, ∀ i ∈ r, -(pos : Int) ≤ i ∧ i < (pos : Int)) →
      ∃ Y, maskLMgather X P = some Y
        ∧ (∀ (b k : Nat) (pr : List Int) (i : Int), P[b]? = some pr → pr[k]? = some i →
            (Y[b]?.bind fun row => row[k]?) =
              (X[b]?.bind fun xr =>
                xr[if 0 ≤ i then i.toNat else ((pos : Int) + i).toNat]?)))
    ∧ (∀ (b : Nat) (pr : List Int) (i : Int), P[b]? = some pr → i ∈ pr →
        ((pos : Int) ≤ i ∨ i < -(pos : Int)) → maskLMgather X P = none) := by
  have hPne : P ≠ [] := List.ne_nil_of_length_pos (by omega)
  have hnpP : numPred P = np := numPred_eq hPne hPr
  have hlen : P.length = X.length := by rw [hP, hX]
  have hrowlen : ∀ b, b < X.length → (X.getD b []).length = pos :=
    fun b hb => hXr _ (getD_mem hb)
  have hrectNP : ∀ r ∈ P, r.length = numPred P := fun r hr => by
    rw [hnpP]
    exact hPr r hr
  constructor
  · intro hin
    have hin2 : ∀ b pr, P[b]? = some pr → ∀ i ∈ pr,
        -((X.getD b []).length : Int) ≤ i ∧ i < ((X.getD b []).length : Int) := by
      intro b pr hPb i hi
      have hb : b < X.length := by
        rcases List.getElem?_eq_some.mp hPb with ⟨hlt, _⟩
        omega
      have hii := hin pr (List.getElem?_mem hPb) i hi
      rw [hrowlen b hb]
      omega
    have hmaster := maskLMgather_eq_some hlen (by omega) (by omega) hrectNP hin2
    refine ⟨_, hmaster, ?_⟩
    intro b k pr i hPb hk
    have hb : b < X.length := by
      rcases List.getElem?_eq_some.mp hPb with ⟨hlt, _⟩
      omega
    have hi : i ∈ pr := List.getElem?_mem hk
    obtain ⟨hlo, hhi⟩ := hin pr (List.getElem?_mem hPb) i hi
    rw [gather_entry X P hPb hk, List.getElem?_eq_getElem hb, Option.some_bind]
    have hxb : (X[b]).length = pos := hXr _ (List.getElem_mem _)
    have hwlt : (if 0 ≤ i then i.toNat else ((pos : Int) + i).toNat) < (X[b]).length := by
      rcases le_or_lt 0 i with hc | hc
      · rw [if_pos hc]; omega
      · rw [if_neg (Int.not_le.mpr hc)]; omega
    rw [List.getElem?_eq_getElem hwlt]
    have hgd : X.getD b [] = X[b] := List.getD_eq_getElem X [] hb
    have hw : wrapIdx (X.getD b []).length i =
        (if 0 ≤ i then i.toNat else ((pos : Int) + i).toNat) := by
      rcases le_or_lt 0 i with hc | hc
      · rw [wrapIdx_of_nonneg hc, if_pos hc]
      · rw [wrapIdx_of_neg hc, if_neg (Int.not_le.mpr hc), hgd, hxb]
    rw [gatherD, hw, hgd, List.getD_eq_getElem _ _ hwlt]
  · intro b pr i hPb hi hout
    have hb : b < X.length := by
      rcases List.getElem?_eq_some.mp hPb with ⟨hlt, _⟩
      omega
    have hzip : (batchIdx X.length (numPred P)).zip P.flatten =
        P.enum.flatMap (fun bi => bi.2.map (fun j => (bi.1, j))) := by
      rw [batchIdx, ← hlen, List.range_eq_range', List.enum]
      exact zip_batch_flatten P 0 hrectNP
    have hcond : (batchIdx X.length (numPred P)).length = P.flatten.length := by
      rw [length_batchIdx, length_flatten_rect hrectNP, hlen]
    have hmem : (b, i) ∈ (batchIdx X.length (numPred P)).zip P.flatten := by
      rw [hzip]
      exact List.mem_flatMap.mpr ⟨(b, pr), List.mk_mem_enum_iff_getElem?.mpr (by rw [hPb]),
        List.mem_map.mpr ⟨i, hi, rfl⟩⟩
    have hnone : gatherOne X (b, i) = none := by
      apply gatherOne_eq_none hb
      rw [hrowlen b hb]
      omega
    have hbz : broadcastZip (batchIdx X.length (numPred P)) P.flatten =
        some ((batchIdx X.length (numPred P)).zip P.flatten) := by
      rw [broadcastZip, if_pos hcond]
    rw [maskLMgather]
    simp only [maskedXflat]
    rw [hbz, Option.some_bind, optionMapM_eq_none (gatherOne X) hmem hnone]
    rfl

/-- Position matrix with an in-range negative index, shape (2, 2), for the
C10 witness. -/
def Pc10 : List (List Int) := [[-1, 2], [0, -3]]

theorem c10_witness :
    ((∀ r ∈ Pc10, ∀ i ∈ r, -(3 : Int) ≤ i ∧ i < (3 : Int)) →
      ∃ Y, maskLMgather Xc3 Pc10 = some Y
        ∧ (∀ (b k : Nat) (pr : List Int) (i : Int), Pc10[b]? = some pr → pr[k]? = some i →
            (Y[b]?.bind fun row => row[k]?) =
              (Xc3[b]?.bind fun xr =>
                xr[if 0 ≤ i then i.toNat else ((3 : Int) + i).toNat]?)))
    ∧ (∀ (b : Nat) (pr : List Int) (i : Int), Pc10[b]? = some pr → i ∈ pr →
        ((3 : Int) ≤ i ∨ i < -(3 : Int)) → maskLMgather Xc3 Pc10 = none) :=
  c10_negative_positions Xc3 Pc10 2 3 2 (by decide) (by decide) (by decide) (by decide)
    (by decide) (by decide)

end BertSpec
